import Mathlib

/-
Verification development for the ReportBro-style local report server
(src/server/app.py).  The file embeds, as executable Lean definitions,
the two core subsystems of the server:

* the rich-text normalization engine `normalize_richtext_elements`,
  which reconciles a Quill-style insert-op delta stream or a raw markup
  string into plain text plus style attributes, and

* the artifact cache's background sweep pass `background_cache_cleaner`.

Python strings are modelled as Lean `String`/`List Char`; Python dicts
holding document elements are modelled as a structure with optional
fields, with explicit Python-truthiness helpers; Python exceptions are
modelled with `Except`, the error value carrying the element state at
the raise point; the stdlib helpers `html.escape`/`html.unescape` are
modelled on the entity set `html.escape` produces; `str.lower` is
modelled on the ASCII range (all markup vocabulary in the source is
ASCII).  `re.search`/`re.sub` are modelled by explicit leftmost scans
whose per-position matchers mirror the concrete patterns of the source.
-/

set_option maxRecDepth 20000

/-- The apostrophe character (U+0027), written via its code point. -/
def quoteChar : Char := Char.ofNat 39

/-- ASCII model of Python `str.lower` on one character. -/
def pyCharLower (c : Char) : Char :=
  if 65 ≤ c.toNat ∧ c.toNat ≤ 90 then Char.ofNat (c.toNat + 32) else c

/-- ASCII model of Python `str.lower` on a list of characters. -/
def pyLowerL (l : List Char) : List Char := l.map pyCharLower

/-- ASCII model of Python `str.lower`. -/
def pyLowerStr (s : String) : String := ⟨pyLowerL s.toList⟩

/-- Python whitespace class `\s` (ASCII part): space, tab, newline,
carriage return, vertical tab, form feed. -/
def isPySpace (c : Char) : Bool :=
  c = ' ' || c = '\t' || c = '\n' || c = '\r' || c.toNat = 11 || c.toNat = 12

/-- Python truthiness of an optional string field of a dict
(`el.get(k)`): missing or empty is falsy. -/
def strTruthyO : Option String → Bool
  | some s => !s.isEmpty
  | none => false

/-- Python truthiness of an optional integer field of a dict:
missing or zero is falsy. -/
def natTruthyO : Option Nat → Bool
  | some n => n != 0
  | none => false

/-- Python `s.endswith("\n")`. -/
def endsWithNL (s : String) : Bool := s.toList.getLast? = some '\n'

/-- Character class `[0-9a-f]` of the color regexes. -/
def isHexLowerDigit (c : Char) : Bool :=
  ('0' ≤ c && c ≤ '9') || ('a' ≤ c && c ≤ 'f')

/-- Decimal value of a digit run, as Python `int(...)` reads a `\d+` group. -/
def digitsToNat (ds : List Char) : Nat :=
  ds.foldl (fun a c => a * 10 + (c.toNat - 48)) 0

/-- `int(round(num * 1.333))` of the source, in exact integer arithmetic:
Python `round` is round-half-to-even, and for every representable input
the float product `num * 1.333` rounds back to the exact value of
`num * 1333 / 1000` whenever that value is a tie, so the composite is
banker's rounding of the exact rational (nearest-integer facts are
proved below). -/
def ptToPx (n : Nat) : Nat :=
  let a := 1333 * n
  let q := a / 1000
  let r := a % 1000
  if 500 < r then q + 1
  else if r < 500 then q
  else if q % 2 = 0 then q else q + 1

/-- The delta-attribute size parse `re.match(r"^(\d+)(px|pt)$", size)`
plus the conversion the source applies to the groups. -/
def parseSize (s : String) : Option Nat :=
  let cs := s.toList
  let ds := cs.takeWhile Char.isDigit
  let rest := cs.dropWhile Char.isDigit
  if ds = [] then none
  else if rest = "px".toList then some (digitsToNat ds)
  else if rest = "pt".toList then some (ptToPx (digitsToNat ds))
  else none

/-- Does the list start with the given literal pattern? -/
def startsWithL : List Char → List Char → Bool
  | _, [] => true
  | [], _ :: _ => false
  | c :: t, p :: ps => c = p && startsWithL t ps

/-- Case-insensitive variant (the pattern is given lowercase). -/
def startsWithCI : List Char → List Char → Bool
  | _, [] => true
  | [], _ :: _ => false
  | c :: t, p :: ps => pyCharLower c = p && startsWithCI t ps

/-- Python `pat in hay` substring test. -/
def hasInfixL (hay pat : List Char) : Bool :=
  match hay with
  | [] => startsWithL [] pat
  | c :: t => startsWithL (c :: t) pat || hasInfixL t pat

/-- Consume a literal, returning the rest. -/
def afterLit (l pat : List Char) : Option (List Char) :=
  if startsWithL l pat then some (l.drop pat.length) else none

/-- Consume a literal case-insensitively, returning the rest. -/
def afterLitCI (l pat : List Char) : Option (List Char) :=
  if startsWithCI l pat then some (l.drop pat.length) else none

/-- `re.search`: try the per-position matcher at every position, left to
right, and return the first hit. -/
def scanFor (m : List Char → Option α) (l : List Char) : Option α :=
  match l with
  | [] => m []
  | c :: t =>
    match m (c :: t) with
    | some v => some v
    | none => scanFor m t

/-- Python `str.strip()` (ASCII whitespace). -/
def pyStripL (l : List Char) : List Char :=
  ((l.dropWhile isPySpace).reverse.dropWhile isPySpace).reverse

/-- Python `str.strip("'\"")`: remove single/double quotes from both ends. -/
def stripQuotesEnds (l : List Char) : List Char :=
  let qset := fun c => c = '"' || c = quoteChar
  ((l.dropWhile qset).reverse.dropWhile qset).reverse

/-- One character of `html.escape` (quote=True). -/
def escChar (c : Char) : List Char :=
  if c = '&' then "&amp;".toList
  else if c = '<' then "&lt;".toList
  else if c = '>' then "&gt;".toList
  else if c = '"' then "&quot;".toList
  else if c = quoteChar then "&#x27;".toList
  else [c]

/-- `html.escape(p)` on a character list. -/
def escList (l : List Char) : List Char :=
  l.foldr (fun c acc => escChar c ++ acc) []

/-- Python `sep.join(parts)`. -/
def joinSep (sep : List Char) : List (List Char) → List Char
  | [] => []
  | [x] => x
  | x :: y :: t => x ++ sep ++ joinSep sep (y :: t)

/-- Per-position matcher for
`re.search(r"text-align\s*:\s*(left|right|center|justify)", lower)`.
Returns the captured keyword. -/
def matchTextAlignAt (l : List Char) : Option String :=
  match afterLit l "text-align".toList with
  | none => none
  | some r1 =>
    match afterLit (r1.dropWhile isPySpace) [':'] with
    | none => none
    | some r2 =>
      let r3 := r2.dropWhile isPySpace
      if startsWithL r3 "left".toList then some "left"
      else if startsWithL r3 "right".toList then some "right"
      else if startsWithL r3 "center".toList then some "center"
      else if startsWithL r3 "justify".toList then some "justify"
      else none

/-- Per-position matcher for
`re.search(prop + r"\s*:\s*(#[0-9a-f]{3,8}|rgb\([^\)]+\))", lower)` with
`prop` either `color` or `background-color`.  Returns the captured group. -/
def matchCssColorAt (prop : List Char) (l : List Char) : Option (List Char) :=
  match afterLit l prop with
  | none => none
  | some r1 =>
    match afterLit (r1.dropWhile isPySpace) [':'] with
    | none => none
    | some r2 =>
      let r3 := r2.dropWhile isPySpace
      match r3 with
      | '#' :: t =>
        let hx := (t.takeWhile isHexLowerDigit).take 8
        if 3 ≤ hx.length then some ('#' :: hx) else none
      | _ =>
        match afterLit r3 "rgb(".toList with
        | some t =>
          let inner := t.takeWhile (fun c => c ≠ ')')
          match t.dropWhile (fun c => c ≠ ')') with
          | ')' :: _ => if inner = [] then none else some ("rgb(".toList ++ inner ++ [')'])
          | _ => none
        | none => none
      
/-- Per-position matcher for
`re.search(r"font-size\s*:\s*(\d+)(px|pt)", s, re.IGNORECASE)` together
with the group conversion the source applies (`pt` rounds via 1.333). -/
def matchFontSizeAt (l : List Char) : Option Nat :=
  match afterLitCI l "font-size".toList with
  | none => none
  | some r1 =>
    match afterLit (r1.dropWhile isPySpace) [':'] with
    | none => none
    | some r2 =>
      let r3 := r2.dropWhile isPySpace
      let ds := r3.takeWhile Char.isDigit
      let r4 := r3.dropWhile Char.isDigit
      if ds = [] then none
      else if startsWithCI r4 "px".toList then some (digitsToNat ds)
      else if startsWithCI r4 "pt".toList then some (ptToPx (digitsToNat ds))
      else none

/-- Per-position matcher for
`re.search(r"font-family\s*:\s*([^;]+)", s, re.IGNORECASE)`, returning the
raw captured group.  The two degenerate arms mirror the backtracking of
`\s*` against `[^;]+` when only whitespace follows the colon. -/
def matchFontFamilyAt (l : List Char) : Option (List Char) :=
  match afterLitCI l "font-family".toList with
  | none => none
  | some r1 =>
    match afterLit (r1.dropWhile isPySpace) [':'] with
    | none => none
    | some r2 =>
      let sp := r2.takeWhile isPySpace
      let r3 := r2.dropWhile isPySpace
      match r3 with
      | [] =>
        (match sp.getLast? with
         | some c => some [c]
         | none => none)
      | ';' :: _ =>
        (match sp.getLast? with
         | some c => some [c]
         | none => none)
      | _ :: _ => some (r3.takeWhile (fun x => x ≠ ';'))

/-- Backtracking loop of `<a[^>]+href=<q>([^<q>]+)<q>`: the greedy `[^>]+`
consumes `k` characters, maximal first, and shrinks until the literal
`href=` plus a quoted capture matches. -/
def matchHrefCore (q : Char) (t : List Char) : Nat → Option (List Char)
  | 0 => none
  | k + 1 =>
    match afterLitCI (t.drop (k + 1)) "href=".toList with
    | some (c :: r3) =>
      if c = q then
        let cap := r3.takeWhile (fun x => x ≠ q)
        match r3.dropWhile (fun x => x ≠ q) with
        | _ :: _ => if cap = [] then matchHrefCore q t k else some cap
        | [] => matchHrefCore q t k
      else matchHrefCore q t k
    | _ => matchHrefCore q t k

/-- Per-position matcher for
`re.search("<a[^>]+href=" + quoted, s, re.IGNORECASE)`; the capture keeps
the original character case. -/
def matchAnchorAt (q : Char) (l : List Char) : Option (List Char) :=
  match l with
  | '<' :: c :: t =>
    if pyCharLower c = 'a' then
      matchHrefCore q t ((t.takeWhile (fun x => x ≠ '>')).length)
    else none
  | _ => none

/-- The link extraction: the double-quoted pattern is searched first over
the whole string, then the single-quoted variant. -/
def searchHrefL (s : List Char) : Option (List Char) :=
  match scanFor (matchAnchorAt '"') s with
  | some cap => some cap
  | none => scanFor (matchAnchorAt quoteChar) s

/-- `re.sub` engine: scan left to right; on a hit emit the replacement and
continue after the consumed text (never rescanning the replacement), else
keep one character.  Structural fuel (initialized to the input length,
which every matcher's at-least-one-character consumption keeps sufficient)
keeps the recursion kernel-reducible. -/
def rsubGo (m : List Char → Option (List Char × List Char)) :
    Nat → List Char → List Char
  | 0, l => l
  | _ + 1, [] => []
  | fuel + 1, c :: t =>
    match m (c :: t) with
    | some (r, remaining) => r ++ rsubGo m fuel remaining
    | none => c :: rsubGo m fuel t

/-- `re.sub(pattern, repl, l)` with a per-position matcher returning the
replacement and the rest after the match. -/
def rsub (m : List Char → Option (List Char × List Char)) (l : List Char) :
    List Char :=
  rsubGo m l.length l

/-- Matcher of `re.sub(r"(?i)</p\s*>", "\n", s)`. -/
def matchClosePAt : List Char → Option (List Char × List Char)
  | '<' :: '/' :: c :: t =>
    if pyCharLower c = 'p' then
      match t.dropWhile isPySpace with
      | '>' :: r => some (['\n'], r)
      | _ => none
    else none
  | _ => none

/-- Matcher of `re.sub(r"(?i)<br\s*/?>", "\n", s)`. -/
def matchBrAt : List Char → Option (List Char × List Char)
  | '<' :: c1 :: c2 :: t =>
    if pyCharLower c1 = 'b' && pyCharLower c2 = 'r' then
      match t.dropWhile isPySpace with
      | '/' :: '>' :: r => some (['\n'], r)
      | '>' :: r => some (['\n'], r)
      | _ => none
    else none
  | _ => none

/-- Matcher of `re.sub(r"(?i)<li\s*>", "• ", s)`. -/
def matchLiOpenAt : List Char → Option (List Char × List Char)
  | '<' :: c1 :: c2 :: t =>
    if pyCharLower c1 = 'l' && pyCharLower c2 = 'i' then
      match t.dropWhile isPySpace with
      | '>' :: r => some ("• ".toList, r)
      | _ => none
    else none
  | _ => none

/-- Matcher of `re.sub(r"(?i)</li\s*>", "\n", s)`. -/
def matchLiCloseAt : List Char → Option (List Char × List Char)
  | '<' :: '/' :: c1 :: c2 :: t =>
    if pyCharLower c1 = 'l' && pyCharLower c2 = 'i' then
      match t.dropWhile isPySpace with
      | '>' :: r => some (['\n'], r)
      | _ => none
    else none
  | _ => none

/-- Matcher of `re.sub(r"<[^>]+>", "", s)`. -/
def matchAnyTagAt : List Char → Option (List Char × List Char)
  | '<' :: t =>
    let inner := t.takeWhile (fun c => c ≠ '>')
    (match t.dropWhile (fun c => c ≠ '>') with
     | '>' :: r => if inner = [] then none else some ([], r)
     | _ => none)
  | _ => none

/-- Matcher modelling `html.unescape` on the entity set that
`html.escape` emits. -/
def matchEntityAt (l : List Char) : Option (List Char × List Char) :=
  match afterLit l "&amp;".toList with
  | some r => some (['&'], r)
  | none =>
    match afterLit l "&lt;".toList with
    | some r => some (['<'], r)
    | none =>
      match afterLit l "&gt;".toList with
      | some r => some (['>'], r)
      | none =>
        match afterLit l "&quot;".toList with
        | some r => some (['"'], r)
        | none =>
          match afterLit l "&#x27;".toList with
          | some r => some ([quoteChar], r)
          | none => none

/-- Matcher of `re.sub(r"\n{3,}", "\n\n", text)`. -/
def matchNl3At (l : List Char) : Option (List Char × List Char) :=
  let nls := l.takeWhile (fun c => c = '\n')
  if 3 ≤ nls.length then some (['\n', '\n'], l.drop nls.length) else none

/-- The plain-text reduction of the source, lines 215-222: paragraph
closers and line breaks to newlines, list items to bullets/newlines,
remaining tags stripped, entities unescaped, runs of three or more
newlines collapsed to two, ends trimmed. -/
def stripToPlainL (s : List Char) : List Char :=
  let s1 := rsub matchClosePAt s
  let s2 := rsub matchBrAt s1
  let s3 := rsub matchLiOpenAt s2
  let s4 := rsub matchLiCloseAt s3
  let s5 := rsub matchAnyTagAt s4
  let s6 := rsub matchEntityAt s5
  let s7 := rsub matchNl3At s6
  pyStripL s7

/-- A value read from a delta op's attribute mapping: missing, present as
a Python string, or present with a non-string type (the source checks
`isinstance(..., str)` before using string attributes). -/
inductive StrAttr where
  | missing : StrAttr
  | sval : String → StrAttr
  | nonStr : StrAttr
  deriving DecidableEq

/-- The attribute mapping of one insert operation, as read by the source:
boolean flags by truthiness, string attributes through the isinstance
checks. -/
structure DeltaAttrs where
  bold : Bool := false
  italic : Bool := false
  underline : Bool := false
  strike : Bool := false
  link : StrAttr := .missing
  color : StrAttr := .missing
  background : StrAttr := .missing
  font : StrAttr := .missing
  size : StrAttr := .missing
  align : StrAttr := .missing
  deriving DecidableEq

/-- `op.get("attributes")` in Python: missing/falsy maps to the empty
dict (`or {}`), a truthy dict to its contents, and a truthy non-dict
value raises `AttributeError` at the first `attrs.get` call. -/
inductive OpAttrs where
  | absent : OpAttrs
  | amap : DeltaAttrs → OpAttrs
  | notDict : OpAttrs
  deriving DecidableEq

/-- One entry of `rtc["ops"]`: a dict with optional `insert`/`attributes`
keys, or a non-dict entry, whose `op.get` raises `AttributeError`. -/
inductive PyOp where
  | obj : StrAttr → OpAttrs → PyOp
  | notDict : PyOp
  deriving DecidableEq

/-- A truthy `richTextContent` value: a dict carrying an `ops` list
(an empty `ops` list is falsy and skips the delta branch), or a truthy
non-dict value, which fails the `isinstance(rtc, dict)` test and is
skipped.  A falsy `richTextContent` is modelled as the field being
absent. -/
inductive RichContent where
  | rdict : List PyOp → RichContent
  | notDict : RichContent
  deriving DecidableEq

/-- A document element dict, restricted to the fields the normalizer
reads or writes.  Optional fields model missing dict keys; `content`
is modelled as a string (its default `""` in `el.get("content", "")`). -/
structure Element where
  id : Option String := none
  richText : Bool := false
  richTextHtml : Option String := none
  richTextContent : Option RichContent := none
  content : String := ""
  bold : Bool := false
  italic : Bool := false
  underline : Bool := false
  strikethrough : Bool := false
  link : Option String := none
  textColor : Option String := none
  backgroundColor : Option String := none
  font : Option String := none
  fontSize : Option Nat := none
  horizontalAlignment : Option String := none
  deriving DecidableEq

/-- The font-name table of the delta pass: known generic names map to
canonical display names, anything else passes through verbatim. -/
def fontMap (s : String) : String :=
  let f := pyLowerStr s
  if f = "helvetica" then "Helvetica"
  else if f = "times" then "Times New Roman"
  else if f = "courier" then "Courier"
  else s

/-- Lines 106-133 of the source: the per-operation attribute extraction.
Each field is written at most once per op and every guard reads a field
no other clause of the same op writes, so the simultaneous record update
is the sequential dict mutation of the source. -/
def applyAttrs (el : Element) (a : DeltaAttrs) : Element :=
  { el with
    bold := if a.bold then true else el.bold,
    italic := if a.italic then true else el.italic,
    underline := if a.underline then true else el.underline,
    strikethrough := if a.strike then true else el.strikethrough,
    link :=
      if strTruthyO el.link then el.link
      else match a.link with
        | .sval s => some s
        | _ => el.link,
    textColor :=
      if strTruthyO el.textColor then el.textColor
      else match a.color with
        | .sval s => some s
        | _ => el.textColor,
    backgroundColor :=
      if strTruthyO el.backgroundColor then el.backgroundColor
      else match a.background with
        | .sval s => some s
        | _ => el.backgroundColor,
    font :=
      if strTruthyO el.font then el.font
      else match a.font with
        | .sval s => some (fontMap s)
        | _ => el.font,
    fontSize :=
      if natTruthyO el.fontSize then el.fontSize
      else match a.size with
        | .sval s =>
          (match parseSize s with
           | some n => some n
           | none => el.fontSize)
        | _ => el.fontSize }

/-- Lines 134-136: the align contribution of one (dict) op; read only
when the inserted text is a string ending in a newline and the align
attribute is a string, and lowercased like the source. -/
def opAlign : PyOp → Option String
  | .obj (.sval s) (.amap a) =>
    if endsWithNL s then
      match a.align with
      | .sval t => some (pyLowerStr t)
      | _ => none
    else none
  | _ => none

/-- The `align_val` accumulator step: the last observed value wins. -/
def alignStep (a : Option String) (op : PyOp) : Option String :=
  match opAlign op with
  | some v => some v
  | none => a

/-- The delta loop of lines 105-136.  A non-dict op, or a truthy
non-dict `attributes` value, raises; the error carries the element state
at the raise point (mutations of earlier ops are kept). -/
def processOps (el : Element) (a : Option String) :
    List PyOp → Except Element (Element × Option String)
  | [] => .ok (el, a)
  | op :: rest =>
    match op with
    | .notDict => .error el
    | .obj _ .notDict => .error el
    | .obj insert .absent =>
      processOps (applyAttrs el {}) (alignStep a (.obj insert .absent)) rest
    | .obj insert (.amap da) =>
      processOps (applyAttrs el da) (alignStep a (.obj insert (.amap da))) rest

/-- Lines 105-138: run the delta loop, then install `align_val` as
`horizontalAlignment` when it is one of the four known keywords. -/
def deltaExtract (el : Element) (ops : List PyOp) : Except Element Element :=
  match processOps el none ops with
  | .error e => .error e
  | .ok (el2, alignVal) =>
    .ok (match alignVal with
      | some a =>
        if a = "left" ∨ a = "center" ∨ a = "right" ∨ a = "justify" then
          { el2 with horizontalAlignment := some a }
        else el2
      | none => el2)

/-- Lines 140-146: the minimal HTML synthesized from the delta text,
`"<p>" + "</p><p>".join(html.escape(p) for p in string inserts) + "</p>"`. -/
def deltaHtml (ops : List PyOp) : String :=
  ⟨"<p>".toList ++
    joinSep "</p><p>".toList
      (ops.filterMap (fun op =>
        match op with
        | .obj (.sval v) _ => some (escList v.toList)
        | _ => none)) ++
    "</p>".toList⟩

/-- Lines 151-212: the markup-level extraction pass over the resolved
source `s` (already `\r`-free), with `lower = s.lower()` computed once.
Each field is written at most once and each guard reads only its own
field, so the simultaneous record update is the source's statement
sequence. -/
def markupAttrs (el : Element) (s : List Char) : Element :=
  let lower := pyLowerL s
  { el with
    bold :=
      if hasInfixL lower "<b".toList || hasInfixL lower "<strong".toList then true
      else el.bold,
    italic :=
      if hasInfixL lower "<i".toList || hasInfixL lower "<em".toList then true
      else el.italic,
    underline :=
      if hasInfixL lower "<u".toList then true
      else el.underline,
    strikethrough :=
      if hasInfixL lower "<s".toList || hasInfixL lower "<strike".toList ||
          hasInfixL lower "<del".toList || hasInfixL lower "line-through".toList then true
      else el.strikethrough,
    horizontalAlignment :=
      if hasInfixL lower "ql-align-center".toList then some "center"
      else if hasInfixL lower "ql-align-right".toList then some "right"
      else if hasInfixL lower "ql-align-justify".toList then some "justify"
      else
        match scanFor matchTextAlignAt lower with
        | some v => some v
        | none => el.horizontalAlignment,
    link :=
      if strTruthyO el.link then el.link
      else
        match searchHrefL s with
        | some cap => some ⟨cap⟩
        | none => el.link,
    textColor :=
      if strTruthyO el.textColor then el.textColor
      else
        match scanFor (matchCssColorAt "color".toList) lower with
        | some cap => some ⟨cap⟩
        | none => el.textColor,
    backgroundColor :=
      if strTruthyO el.backgroundColor then el.backgroundColor
      else
        match scanFor (matchCssColorAt "background-color".toList) lower with
        | some cap => some ⟨cap⟩
        | none => el.backgroundColor,
    font :=
      if strTruthyO el.font then el.font
      else if hasInfixL lower "ql-font-helvetica".toList then some "Helvetica"
      else if hasInfixL lower "ql-font-times".toList then some "Times New Roman"
      else if hasInfixL lower "ql-font-courier".toList then some "Courier"
      else
        match scanFor matchFontFamilyAt s with
        | some cap =>
          some ⟨stripQuotesEnds (pyStripL (cap.takeWhile (fun x => x ≠ ',')))⟩
        | none => el.font,
    fontSize :=
      if natTruthyO el.fontSize then el.fontSize
      else
        match scanFor matchFontSizeAt s with
        | some n => some n
        | none => el.fontSize }

/-- Lines 148-227 after the delta branch: resolve the working source
(`raw_html or el.get("content", "")`, carriage returns removed), run the
markup pass, reduce to plain text, clear `richText` and pop the raw
rich-content fields. -/
def afterDelta (el : Element) (rawHtml : String) : Element :=
  let s0 := if rawHtml.isEmpty then el.content.toList else rawHtml.toList
  let s := s0.filter (fun c => c ≠ '\r')
  let el2 := markupAttrs el s
  { el2 with
    content := ⟨stripToPlainL s⟩,
    richText := false,
    richTextHtml := none,
    richTextContent := none }

/-- Lines 97-227: processing of one element carrying rich content.
`Except.error` carries the element state at the raise point of the delta
loop; elements without rich content pass through untouched. -/
def processElementE (el : Element) : Except Element Element :=
  if el.richText || strTruthyO el.richTextHtml || el.richTextContent.isSome then
    let rawHtml := el.richTextHtml.getD ""
    if rawHtml.isEmpty then
      match el.richTextContent with
      | some (.rdict ops) =>
        if ops = [] then .ok (afterDelta el rawHtml)
        else
          match deltaExtract el ops with
          | .error e => .error e
          | .ok el2 => .ok (afterDelta el2 (deltaHtml ops))
      | some .notDict => .ok (afterDelta el rawHtml)
      | none => .ok (afterDelta el rawHtml)
    else .ok (afterDelta el rawHtml)
  else .ok el

/-- The per-element try/except of lines 96-231: an error is caught and
the element keeps the state it had at the raise point. -/
def processElement (el : Element) : Element :=
  match processElementE el with
  | .ok e => e
  | .error e => e

/-- Did processing this element raise (and get caught)? -/
def elementFailed (el : Element) : Bool :=
  match processElementE el with
  | .ok _ => false
  | .error _ => true

/-- The loop of lines 95-231 over `docElements`: every element is
processed; when one raises, the exception is caught and
`el.get("id")` is logged (second component collects the logged
identifiers, in loop order). -/
def normalizeElements : List Element → List Element × List (Option String)
  | [] => ([], [])
  | el :: rest =>
    let r := processElementE el
    let rec2 := normalizeElements rest
    match r with
    | .ok e => (e :: rec2.1, rec2.2)
    | .error e => (e :: rec2.1, el.id :: rec2.2)

/-- The report definition dict: the normalizer touches only
`docElements` (other keys are opaque and forwarded unchanged). -/
structure ReportDefn where
  docElements : List Element := []
  deriving DecidableEq

/-- The argument of `normalize_richtext_elements`: a dict, or one of the
non-mapping payloads a caller could pass (line 91 checks
`isinstance(report_definition, dict)`). -/
inductive ReportInput where
  | noneVal : ReportInput
  | listVal : List String → ReportInput
  | strVal : String → ReportInput
  | dictVal : ReportDefn → ReportInput
  deriving DecidableEq

/-- `isinstance(report_definition, dict)`. -/
def isDictInput : ReportInput → Bool
  | .dictVal _ => true
  | _ => false

/-- Lines 89-233, `normalize_richtext_elements`: non-mapping inputs are
returned unchanged; for a dict, every doc element is processed in place. -/
def normalizeInput : ReportInput → ReportInput
  | .dictVal d => .dictVal ⟨(normalizeElements d.docElements).1⟩
  | x => x

/-- One cache entry as stored by `cache_set`: the artifact bytes
(abstracted to an opaque string) and the creation timestamp, modelled in
whole seconds. -/
structure CacheEntry where
  pdf : String := ""
  timestamp : Int := 0
  deriving DecidableEq

/-- `CACHE_TTL_SECONDS` of the source configuration. -/
def CACHE_TTL_SECONDS : Int := 3600

/-- One pass of `background_cache_cleaner` (lines 71-80): a single `now`
for the whole pass, a collection phase listing every key whose age
strictly exceeds the TTL, then deletion of exactly the collected keys,
all under the cache lock. -/
def cleanerPass (now : Int) (cache : List (String × CacheEntry)) :
    List (String × CacheEntry) :=
  let keysToDelete :=
    (cache.filter (fun kv => now - kv.2.timestamp > CACHE_TTL_SECONDS)).map
      (fun kv => kv.1)
  keysToDelete.foldl (fun c k => c.filter (fun kv => kv.1 ≠ k)) cache

/-- `cache_get` (lines 45-47): a pure lookup under the lock; never
mutates the store. -/
def cacheGet (cache : List (String × CacheEntry)) (k : String) :
    Option CacheEntry :=
  (cache.find? (fun kv => kv.1 = k)).map (fun kv => kv.2)

/-- Collapse of the per-element `try/except` result to the element state
the loop leaves behind. -/
def exceptVal : Except Element Element → Element
  | .ok e => e
  | .error e => e

lemma toNat_ofNat_small (n : Nat) (h : n < 55296) : (Char.ofNat n).toNat = n := by
  have hv : n.isValidChar := Or.inl h
  unfold Char.ofNat
  rw [dif_pos hv]
  simp [Char.ofNatAux, Char.toNat, UInt32.toNat, BitVec.toNat_ofNatLt]

lemma pyCharLower_not_upper (c : Char) :
    ¬(65 ≤ (pyCharLower c).toNat ∧ (pyCharLower c).toNat ≤ 90) := by
  unfold pyCharLower
  split
  · rename_i h
    rw [toNat_ofNat_small (c.toNat + 32) (by omega)]
    omega
  · rename_i h
    exact h

lemma pyCharLower_fix (c : Char) : pyCharLower (pyCharLower c) = pyCharLower c := by
  show (if 65 ≤ (pyCharLower c).toNat ∧ (pyCharLower c).toNat ≤ 90 then
      Char.ofNat ((pyCharLower c).toNat + 32) else pyCharLower c) = pyCharLower c
  rw [if_neg (pyCharLower_not_upper c)]

lemma map_fix_of_mem {l : List Char} {f : Char → Char}
    (h : ∀ c ∈ l, f c = c) : l.map f = l := by
  induction l with
  | nil => rfl
  | cons a t ih =>
    simp only [List.map_cons]
    rw [h a (by simp), ih (fun c hc => h c (by simp [hc]))]

lemma mem_pyLowerL_fix {l : List Char} {c : Char} (hc : c ∈ pyLowerL l) :
    pyCharLower c = c := by
  simp only [pyLowerL, List.mem_map] at hc
  obtain ⟨d, _, rfl⟩ := hc
  exact pyCharLower_fix d

lemma pyLowerStr_fix_of_subset {v l : List Char}
    (h : ∀ c ∈ v, c ∈ pyLowerL l) : pyLowerStr ⟨v⟩ = ⟨v⟩ := by
  show (⟨pyLowerL v⟩ : String) = ⟨v⟩
  have : pyLowerL v = v := map_fix_of_mem (fun c hc => mem_pyLowerL_fix (h c hc))
  rw [this]

/-- Claim C10: `normalize_richtext_elements` returns any non-mapping
input (None, a list, a string, ...) unchanged, raising no error and
reading no element: the `isinstance(report_definition, dict)` guard of
line 91 short-circuits the whole function. -/
theorem c10_nondict (x : ReportInput) (h : isDictInput x = false) :
    normalizeInput x = x := by
  cases x <;> simp_all [normalizeInput, isDictInput]

/-- Witness for C10 at the concrete non-mapping input `None`. -/
theorem c10_nondict_witness :
    isDictInput ReportInput.noneVal = false ∧
      normalizeInput ReportInput.noneVal = ReportInput.noneVal :=
  ⟨rfl, c10_nondict ReportInput.noneVal rfl⟩

/-- Claim C8: normalization is a no-op on an element that is already
normalized (`richText` false) and carries no raw rich-content field
(`richTextHtml`, `richTextContent` absent) — equally, on an element that
never carried rich content: the guard of line 97 skips it and no field
is touched. -/
theorem c8_idempotent (el : Element) (h1 : el.richText = false)
    (h2 : el.richTextHtml = none) (h3 : el.richTextContent = none) :
    processElement el = el := by
  simp [processElement, processElementE, h1, h2, h3, strTruthyO]

/-- Witness for C8 at a concrete rich-content-free element with plain
fields populated. -/
theorem c8_idempotent_witness :
    processElement
        { id := some "p1", content := "plain text", bold := true,
          fontSize := some 12 } =
      { id := some "p1", content := "plain text", bold := true,
        fontSize := some 12 } :=
  c8_idempotent _ rfl rfl rfl

lemma mem_foldl_eraseKey (dels : List String)
    (c : List (String × CacheEntry)) (kv : String × CacheEntry) :
    kv ∈ dels.foldl (fun c k => c.filter (fun x => x.1 ≠ k)) c ↔
      kv ∈ c ∧ kv.1 ∉ dels := by
  induction dels generalizing c with
  | nil => simp
  | cons d ds ih =>
    simp only [List.foldl_cons]
    rw [ih]
    simp only [List.mem_filter, List.mem_cons]
    constructor
    · rintro ⟨⟨hm, hd⟩, hds⟩
      refine ⟨hm, ?_⟩
      intro hor
      rcases hor with h | h
      · simp [h] at hd
      · exact hds h
    · rintro ⟨hm, hnot⟩
      refine ⟨⟨hm, ?_⟩, fun h => hnot (Or.inr h)⟩
      simp only [ne_eq, decide_eq_true_eq]
      intro h
      exact hnot (Or.inl h)

lemma nodup_key_inj {cache : List (String × CacheEntry)}
    (h : (cache.map Prod.fst).Nodup) {a b : String × CacheEntry}
    (ha : a ∈ cache) (hb : b ∈ cache) (hk : a.1 = b.1) : a = b := by
  induction cache with
  | nil => cases ha
  | cons x t ih =>
    simp only [List.map_cons, List.nodup_cons] at h
    rcases List.mem_cons.mp ha with rfl | ha2
    · rcases List.mem_cons.mp hb with rfl | hb2
      · rfl
      · exact absurd (List.mem_map.mpr ⟨b, hb2, hk.symm⟩) h.1
    · rcases List.mem_cons.mp hb with rfl | hb2
      · exact absurd (List.mem_map.mpr ⟨a, ha2, hk⟩) h.1
      · exact ih h.2 ha2 hb2

/-- Claim C7: one pass of the background sweeper, with its single `now`,
deletes exactly the entries whose age `now - timestamp` strictly exceeds
`CACHE_TTL_SECONDS`; every entry whose age does not exceed the TTL is
still present after the pass.  (Reads are pure lookups — `cacheGet` —
so presence before expiry and absence after expiry are exactly this
membership equivalence.) -/
theorem c7_sweep (now : Int) (cache : List (String × CacheEntry))
    (h : (cache.map Prod.fst).Nodup) (k : String) (e : CacheEntry) :
    (k, e) ∈ cleanerPass now cache ↔
      (k, e) ∈ cache ∧ now - e.timestamp ≤ CACHE_TTL_SECONDS := by
  unfold cleanerPass
  rw [mem_foldl_eraseKey]
  constructor
  · rintro ⟨hm, hnot⟩
    refine ⟨hm, ?_⟩
    by_contra hgt
    push_neg at hgt
    exact hnot (List.mem_map.mpr
      ⟨(k, e), List.mem_filter.mpr ⟨hm, by simpa using hgt⟩, rfl⟩)
  · rintro ⟨hm, hle⟩
    refine ⟨hm, fun hk2 => ?_⟩
    obtain ⟨kv, hkv, hfst⟩ := List.mem_map.mp hk2
    have hkvc := (List.mem_filter.mp hkv).1
    have heq := nodup_key_inj h hkvc hm hfst
    subst heq
    have := (List.mem_filter.mp hkv).2
    simp only [decide_eq_true_eq] at this
    omega

/-- Witness for C7: a two-entry cache at `now = 5000`; the entry created
at time 0 (age 5000 > 3600) is swept, the entry created at 5000 (age 0)
survives. -/
theorem c7_sweep_witness :
    (("k2", ⟨"b", 5000⟩) ∈
        cleanerPass 5000 [("k1", ⟨"a", 0⟩), ("k2", ⟨"b", 5000⟩)]) ∧
      ¬(("k1", (⟨"a", 0⟩ : CacheEntry)) ∈
        cleanerPass 5000 [("k1", ⟨"a", 0⟩), ("k2", ⟨"b", 5000⟩)]) :=
  ⟨(c7_sweep 5000 [("k1", ⟨"a", 0⟩), ("k2", ⟨"b", 5000⟩)] (by decide)
      "k2" ⟨"b", 5000⟩).mpr ⟨by decide, by decide⟩,
   by decide⟩

/-- Claim C3 (amended): when processing an element raises, the error is
caught, the element's identifier is logged, and every other element is
still processed — the loop never aborts and never surfaces the error;
but the erroring element keeps the state it had at the raise point
(mutations already applied by earlier insert operations are retained),
not necessarily its exact pre-normalization state. -/
theorem c3_amended (els : List Element) :
    normalizeElements els =
      (els.map processElement,
       els.filterMap (fun el => if elementFailed el then some el.id else none)) := by
  induction els with
  | nil => rfl
  | cons el t ih =>
    cases hr : processElementE el <;>
      simp [normalizeElements, hr, ih, processElement, elementFailed]

/-- Counterexample for C3 as stated: an element whose delta ops are a
well-formed bold op followed by a non-dict entry.  The second op raises
`AttributeError` at `op.get`; the error is caught, but the element is
*not* left in its pre-normalization state — the first op has already set
`bold`. -/
theorem c3_counterexample :
    elementFailed
        { id := some "bad1", richText := true,
          richTextContent := some (.rdict
            [.obj (.sval "x") (.amap { bold := true }), .notDict]) } = true ∧
      processElement
          { id := some "bad1", richText := true,
            richTextContent := some (.rdict
              [.obj (.sval "x") (.amap { bold := true }), .notDict]) } ≠
        { id := some "bad1", richText := true,
          richTextContent := some (.rdict
            [.obj (.sval "x") (.amap { bold := true }), .notDict]) } := by
  decide

/-- The one-element definition of the C2 end-to-end scenario: delta
`[insert "Hello "] [insert "world" bold] [insert "\n" align center]`. -/
def elC2 : Element :=
  { id := some "el1", richText := true,
    richTextContent := some (.rdict
      [ .obj (.sval "Hello ") .absent,
        .obj (.sval "world") (.amap { bold := true }),
        .obj (.sval "\n") (.amap { align := .sval "center" }) ]) }

/-- Counterexample for C2 as stated: on the scenario delta the code
synthesizes one `<p>...</p>` paragraph per insert op, so the normalized
content is `"Hello \nworld"`, not the claimed `"Hello world"`. -/
theorem c2_counterexample :
    ((normalizeElements [elC2]).1.head?.map Element.content =
        some "Hello \nworld") ∧
      "Hello \nworld" ≠ "Hello world" := by
  constructor
  · decide
  · decide

/-- Claim C2 (amended): normalizing the one-element definition with the
scenario delta yields `bold = true` and `horizontalAlignment = "center"`
as claimed, but `content = "Hello \nworld"`: each insert op becomes its
own synthesized paragraph, so the newline between the two paragraphs
remains in the plain text. -/
theorem c2_amended :
    normalizeInput (.dictVal ⟨[elC2]⟩) =
      .dictVal ⟨[{ id := some "el1", richText := false,
                   content := "Hello \nworld", bold := true,
                   horizontalAlignment := some "center" }]⟩ := by
  decide

/-- The C5 counterexample element: markup consisting only of a
line-break tag, an image tag, an unordered-list tag and a span tag. -/
def elC5ce : Element :=
  { richText := true, richTextHtml := some "<br><img><ul><span>" }

/-- Counterexample for C5 as stated: the markup pass detects tags by
raw substring prefixes, so a source containing only `<br>`, `<img>`,
`<ul>` and `<span>` — none of the bold/strong, italic/emphasis,
underline, strikethrough/delete vocabulary — still sets all four flags
(`<b` matches `<br>`, `<i` matches `<img>`, `<u` matches `<ul>`,
`<s` matches `<span>`). -/
theorem c5_counterexample :
    (processElement elC5ce).bold = true ∧
      (processElement elC5ce).italic = true ∧
      (processElement elC5ce).underline = true ∧
      (processElement elC5ce).strikethrough = true := by
  decide

/-- Claim C5 (amended): the markup pass sets `bold` exactly when the
lowercased source contains the substring `<b` or `<strong` (so every tag
whose name begins with `b`, such as `<br>`, also triggers it), `italic`
exactly for `<i`/`<em` (including `<img>`), `underline` exactly for `<u`
(including `<ul>`), and `strikethrough` exactly for
`<s`/`<strike`/`<del`/`line-through` (including `<span>`); flags already
true stay true. -/
theorem c5_amended (el : Element) (s : List Char) :
    ((markupAttrs el s).bold = true ↔
      (el.bold = true ∨ hasInfixL (pyLowerL s) "<b".toList = true ∨
        hasInfixL (pyLowerL s) "<strong".toList = true)) ∧
    ((markupAttrs el s).italic = true ↔
      (el.italic = true ∨ hasInfixL (pyLowerL s) "<i".toList = true ∨
        hasInfixL (pyLowerL s) "<em".toList = true)) ∧
    ((markupAttrs el s).underline = true ↔
      (el.underline = true ∨ hasInfixL (pyLowerL s) "<u".toList = true)) ∧
    ((markupAttrs el s).strikethrough = true ↔
      (el.strikethrough = true ∨ hasInfixL (pyLowerL s) "<s".toList = true ∨
        hasInfixL (pyLowerL s) "<strike".toList = true ∨
        hasInfixL (pyLowerL s) "<del".toList = true ∨
        hasInfixL (pyLowerL s) "line-through".toList = true)) := by
  refine ⟨?_, ?_, ?_, ?_⟩ <;>
    · simp only [markupAttrs]
      split <;> simp_all <;> tauto

/-- Claim C1 (amended): across the markup-level extraction pass, every
*truthy* already-set style attribute except `horizontalAlignment` is
retained: boolean flags are only ever raised to `true`, and the
link/color/font/size clauses are guarded by `if not el.get(...)`.
`horizontalAlignment` is excepted: its markup clause (lines 163-172)
has no such guard, so a delta-derived alignment can be overwritten when
the synthesized source matches an alignment pattern; likewise a
delta-derived falsy value (empty string, zero size) is not protected,
since the guards test Python truthiness, not presence. -/
theorem c1_amended (el : Element) (s : List Char) :
    (el.bold = true → (markupAttrs el s).bold = true) ∧
    (el.italic = true → (markupAttrs el s).italic = true) ∧
    (el.underline = true → (markupAttrs el s).underline = true) ∧
    (el.strikethrough = true → (markupAttrs el s).strikethrough = true) ∧
    (strTruthyO el.link = true → (markupAttrs el s).link = el.link) ∧
    (strTruthyO el.textColor = true → (markupAttrs el s).textColor = el.textColor) ∧
    (strTruthyO el.backgroundColor = true →
      (markupAttrs el s).backgroundColor = el.backgroundColor) ∧
    (strTruthyO el.font = true → (markupAttrs el s).font = el.font) ∧
    (natTruthyO el.fontSize = true → (markupAttrs el s).fontSize = el.fontSize) := by
  refine ⟨?_, ?_, ?_, ?_, ?_, ?_, ?_, ?_, ?_⟩ <;> intro h <;>
    · simp only [markupAttrs]
      simp [h]

/-- The element used by the C1 witness: every guarded attribute set. -/
def elC1w : Element :=
  { bold := true, italic := true, underline := true,
    strikethrough := true, link := some "L", textColor := some "#123",
    backgroundColor := some "#456", font := some "F", fontSize := some 12 }

/-- The source used by the C1 witness: competing values on offer for
every attribute. -/
def srcC1w : List Char :=
  "color:#abc background-color:#def font-size:9px font-family:Z <a href=\"W\">".toList

/-- Witness for C1 (amended) at a fully populated element against a
source that offers competing values for every attribute. -/
theorem c1_amended_witness :
    (markupAttrs elC1w srcC1w).bold = true ∧
    (markupAttrs elC1w srcC1w).italic = true ∧
    (markupAttrs elC1w srcC1w).underline = true ∧
    (markupAttrs elC1w srcC1w).strikethrough = true ∧
    (markupAttrs elC1w srcC1w).link = some "L" ∧
    (markupAttrs elC1w srcC1w).textColor = some "#123" ∧
    (markupAttrs elC1w srcC1w).backgroundColor = some "#456" ∧
    (markupAttrs elC1w srcC1w).font = some "F" ∧
    (markupAttrs elC1w srcC1w).fontSize = some 12 := by
  obtain ⟨h1, h2, h3, h4, h5, h6, h7, h8, h9⟩ := c1_amended elC1w srcC1w
  exact ⟨h1 rfl, h2 rfl, h3 rfl, h4 rfl, h5 (by decide), h6 (by decide),
    h7 (by decide), h8 (by decide), h9 (by decide)⟩

/-- The C1 counterexample element: a delta whose single newline-closed
insert op carries `align: center` while its inserted *text* is the
literal `text-align:right`. -/
def elC1ce : Element :=
  { id := some "e", richText := true,
    richTextContent := some (.rdict
      [.obj (.sval "text-align:right\n") (.amap { align := .sval "center" })]) }

/-- Counterexample for C1 as stated: the delta pass derives
`horizontalAlignment = "center"`, but the markup pass — run on the
synthesized source containing the inserted text — matches the unguarded
`text-align` pattern and overwrites it with `"right"`. -/
theorem c1_counterexample :
    (exceptVal (deltaExtract elC1ce
        [.obj (.sval "text-align:right\n")
          (.amap { align := .sval "center" })])).horizontalAlignment =
      some "center" ∧
    (processElement elC1ce).horizontalAlignment = some "right" ∧
    ¬((processElement elC1ce).horizontalAlignment = some "center") := by
  decide

/-- An op that the delta loop consumes without raising: a dict whose
`attributes` value is a dict or is missing/falsy. -/
def goodOp : PyOp → Bool
  | .obj _ (.amap _) => true
  | .obj _ .absent => true
  | _ => false

/-- All ops of a delta are well formed. -/
def opsGood (ops : List PyOp) : Bool := ops.all goodOp

lemma applyAttrs_hAlign (el : Element) (a : DeltaAttrs) :
    (applyAttrs el a).horizontalAlignment = el.horizontalAlignment := rfl

lemma processOps_good (ops : List PyOp) :
    ∀ (el : Element) (a : Option String), opsGood ops = true →
      ∃ el2, processOps el a ops = .ok (el2, ops.foldl alignStep a) ∧
        el2.horizontalAlignment = el.horizontalAlignment := by
  induction ops with
  | nil => exact fun el a _ => ⟨el, rfl, rfl⟩
  | cons op rest ih =>
    intro el a h
    simp only [opsGood, List.all_cons, Bool.and_eq_true] at h
    cases op with
    | notDict => simp [goodOp] at h
    | obj insert oattrs =>
      cases oattrs with
      | notDict => simp [goodOp] at h
      | absent =>
        obtain ⟨el2, h1, h2⟩ :=
          ih (applyAttrs el {}) (alignStep a (.obj insert .absent)) h.2
        exact ⟨el2, by simp [processOps, h1], by rw [h2, applyAttrs_hAlign]⟩
      | amap da =>
        obtain ⟨el2, h1, h2⟩ :=
          ih (applyAttrs el da) (alignStep a (.obj insert (.amap da))) h.2
        exact ⟨el2, by simp [processOps, h1], by rw [h2, applyAttrs_hAlign]⟩

lemma getLast?_cons_match {α : Type} (x : α) (l : List α) :
    (x :: l).getLast? =
      (match l.getLast? with
       | some y => some y
       | none => some x) := by
  cases l with
  | nil => rfl
  | cons b t =>
    rw [List.getLast?_cons_cons]
    cases hl : (b :: t).getLast? with
    | none => simp at hl
    | some y => rfl

lemma foldl_alignStep_eq (ops : List PyOp) :
    ∀ a, ops.foldl alignStep a =
      (match (ops.filterMap opAlign).getLast? with
       | some v => some v
       | none => a) := by
  induction ops with
  | nil => intro a; rfl
  | cons op rest ih =>
    intro a
    rw [List.foldl_cons, ih (alignStep a op)]
    cases hop : opAlign op with
    | none =>
      simp only [List.filterMap_cons, hop, alignStep]
    | some v =>
      simp only [List.filterMap_cons, hop, alignStep]
      rw [getLast?_cons_match]
      cases (List.filterMap opAlign rest).getLast? <;> rfl

/-- Claim C4 (amended): for a delta of well-formed ops, the loop tracks
the *last* align attribute observed on a newline-terminated string
insert — whether or not that value is one of the four keywords — and
sets `horizontalAlignment` only if that final value (lowercased) lies in
{left, center, right, justify}; an earlier valid value followed by a
later invalid one therefore sets nothing.  Alignment is never read from
an op whose inserted text does not end in a newline (`opAlign` is `none`
there). -/
theorem c4_amended (el : Element) (ops : List PyOp) (h : opsGood ops = true) :
    ∃ el2, deltaExtract el ops = .ok el2 ∧
      el2.horizontalAlignment =
        (match (ops.filterMap opAlign).getLast? with
         | some a =>
           if a = "left" ∨ a = "center" ∨ a = "right" ∨ a = "justify" then
             some a
           else el.horizontalAlignment
         | none => el.horizontalAlignment) := by
  obtain ⟨el2, h1, h2⟩ := processOps_good ops el none h
  rw [foldl_alignStep_eq] at h1
  unfold deltaExtract
  rw [h1]
  cases hl : (ops.filterMap opAlign).getLast? with
  | none => exact ⟨el2, rfl, h2⟩
  | some a =>
    by_cases hv : a = "left" ∨ a = "center" ∨ a = "right" ∨ a = "justify"
    · exact ⟨{ el2 with horizontalAlignment := some a }, by simp [hv], by simp [hv]⟩
    · exact ⟨el2, by simp [hv], by simp [hv, h2]⟩

/-- Witness for C4 (amended): a single newline-closed op with
`align: CENTER` (uppercase in the delta, lowercased by the loop). -/
theorem c4_amended_witness :
    (exceptVal (deltaExtract {}
        [.obj (.sval "x\n") (.amap { align := .sval "CENTER" })])).horizontalAlignment =
      some "center" := by
  obtain ⟨el2, h1, h2⟩ := c4_amended {}
    [.obj (.sval "x\n") (.amap { align := .sval "CENTER" })] (by decide)
  rw [h1]
  show el2.horizontalAlignment = some "center"
  rw [h2]
  decide

/-- The C4 counterexample element: two newline-closed ops, the first
with valid `align: center`, the second with the invalid `align: top`. -/
def elC4ce : Element :=
  { richText := true,
    richTextContent := some (.rdict
      [ .obj (.sval "a\n") (.amap { align := .sval "center" }),
        .obj (.sval "b\n") (.amap { align := .sval "top" }) ]) }

/-- Counterexample for C4 as stated: the valid `center` followed by the
invalid `top` yields *no* alignment at all — the loop keeps only the
last observed value and validates it at the end — where the claim
demands the earlier valid `center`. -/
theorem c4_counterexample :
    (processElement elC4ce).horizontalAlignment = none ∧
      ¬((processElement elC4ce).horizontalAlignment = some "center") := by
  decide

/-- A string of the shape `<digits><unit>` with unit `px` or `pt` — the
language of `^(\d+)(px|pt)$`. -/
def sizeLiteral (s : String) : Prop :=
  ∃ (ds : List Char) (u : String),
    s.toList = ds ++ u.toList ∧ ds ≠ [] ∧ (∀ c ∈ ds, c.isDigit = true) ∧
      (u = "px" ∨ u = "pt")

lemma takeWhile_append_eq (p : Char → Bool) (l1 l2 : List Char)
    (h1 : ∀ c ∈ l1, p c = true)
    (h2 : ∀ c, l2.head? = some c → p c = false) :
    (l1 ++ l2).takeWhile p = l1 ∧ (l1 ++ l2).dropWhile p = l2 := by
  induction l1 with
  | nil =>
    cases l2 with
    | nil => exact ⟨rfl, rfl⟩
    | cons c t =>
      simp [List.takeWhile_cons, List.dropWhile_cons, h2 c rfl]
  | cons a t ih =>
    have hpa : p a = true := h1 a (by simp)
    obtain ⟨ht, hd⟩ := ih (fun c hc => h1 c (by simp [hc]))
    simp [List.takeWhile_cons, List.dropWhile_cons, hpa, ht, hd]

lemma parseSize_none_of (s : String) (h : ¬ sizeLiteral s) :
    parseSize s = none := by
  by_cases h1 : s.toList.takeWhile Char.isDigit = []
  · simp only [parseSize]
    rw [if_pos h1]
  · by_cases h2 : s.toList.dropWhile Char.isDigit = "px".toList
    · exact absurd
        ⟨s.toList.takeWhile Char.isDigit, "px",
          by rw [← h2]; exact (List.takeWhile_append_dropWhile _ _).symm, h1,
          fun c hc => List.mem_takeWhile_imp hc, Or.inl rfl⟩ h
    · by_cases h3 : s.toList.dropWhile Char.isDigit = "pt".toList
      · exact absurd
          ⟨s.toList.takeWhile Char.isDigit, "pt",
            by rw [← h3]; exact (List.takeWhile_append_dropWhile _ _).symm, h1,
            fun c hc => List.mem_takeWhile_imp hc, Or.inr rfl⟩ h
      · simp only [parseSize]
        rw [if_neg h1, if_neg h2, if_neg h3]

lemma ptToPx_eq_div (n : ℕ) (h : ¬ (1333 * n) % 1000 = 500) :
    ptToPx n = (2666 * n + 1000) / 2000 := by
  simp only [ptToPx]
  split
  · omega
  · split
    · omega
    · omega

lemma tie_iff_mod (n : ℕ) (h : (1333 * n) % 1000 = 500) : n % 1000 = 500 := by
  have hm : (1333 * n) % 1000 = (333 * (n % 1000)) % 1000 := by
    conv_lhs => rw [Nat.mul_mod]
  have hfin : ∀ m : Fin 1000, (333 * m.val) % 1000 = 500 → m.val = 500 := by
    decide
  have hlt : n % 1000 < 1000 := Nat.mod_lt _ (by norm_num)
  exact hfin ⟨n % 1000, hlt⟩ (by rw [← hm]; exact h)

lemma floor_nat_div_2000 (a : ℕ) :
    (⌊((a : ℚ)) / 2000⌋ : ℤ) = ((a / 2000 : ℕ) : ℤ) := by
  rw [Int.floor_eq_iff]
  constructor
  · rw [le_div_iff₀ (by norm_num)]
    have h1 : (a / 2000) * 2000 ≤ a := Nat.div_mul_le_self a 2000
    exact_mod_cast h1
  · rw [div_lt_iff₀ (by norm_num)]
    have h1 := Nat.div_add_mod a 2000
    have h2 : a % 2000 < 2000 := Nat.mod_lt _ (by norm_num)
    have h3 : a < ((a / 2000 : ℕ) + 1) * 2000 := by omega
    exact_mod_cast h3

lemma ptToPx_close (n : ℕ) :
    |((ptToPx n : ℕ) : ℚ) - (n : ℚ) * 1.333| ≤ 1 / 2 := by
  have ha := Nat.div_add_mod (1333 * n) 1000
  have hb : (1333 * n) % 1000 < 1000 := Nat.mod_lt _ (by norm_num)
  have hx : (n : ℚ) * 1.333 =
      ((1333 * n / 1000 : ℕ) : ℚ) + ((1333 * n % 1000 : ℕ) : ℚ) / 1000 := by
    have h0 : ((1333 * n : ℕ) : ℚ) =
        1000 * ((1333 * n / 1000 : ℕ) : ℚ) + ((1333 * n % 1000 : ℕ) : ℚ) := by
      exact_mod_cast congrArg (fun x : ℕ => (x : ℚ)) ha.symm
    push_cast at h0 ⊢
    nlinarith [h0]
  have hbq : ((1333 * n % 1000 : ℕ) : ℚ) < 1000 := by exact_mod_cast hb
  rw [abs_le]
  simp only [ptToPx]
  split
  · rename_i h1
    have h1q : (500 : ℚ) < ((1333 * n % 1000 : ℕ) : ℚ) := by exact_mod_cast h1
    push_cast
    rw [hx]
    constructor <;> linarith
  · split
    · rename_i h1 h2
      have h2q : ((1333 * n % 1000 : ℕ) : ℚ) < 500 := by exact_mod_cast h2
      have h0q : (0 : ℚ) ≤ ((1333 * n % 1000 : ℕ) : ℚ) := by positivity
      rw [hx]
      constructor <;> linarith
    · split
      · rename_i h1 h2 h3
        have hr : (1333 * n) % 1000 = 500 := by omega
        rw [hr] at hx
        rw [hx]
        constructor <;> linarith
      · rename_i h1 h2 h3
        have hr : (1333 * n) % 1000 = 500 := by omega
        rw [hr] at hx
        push_cast
        rw [hx]
        constructor <;> linarith

lemma nearest_of_close {x : ℚ} {p : ℤ} (h : |(p : ℚ) - x| ≤ 1 / 2) (m : ℤ) :
    |(p : ℚ) - x| ≤ |(m : ℚ) - x| := by
  by_cases hm : m = p
  · subst hm
    exact le_refl _
  · have h1 : (1 : ℤ) ≤ |m - p| := Int.one_le_abs (sub_ne_zero.mpr hm)
    have h1q : (1 : ℚ) ≤ |(m : ℚ) - (p : ℚ)| := by
      have := h1
      push_cast at this ⊢
      exact_mod_cast this
    have h2 : |(m : ℚ) - (p : ℚ)| ≤ |(m : ℚ) - x| + |x - (p : ℚ)| :=
      abs_sub_le _ _ _
    have h3 : |x - (p : ℚ)| = |(p : ℚ) - x| := abs_sub_comm _ _
    linarith

lemma ptToPx_eq_round (n : ℕ) (h : ¬ n % 1000 = 500) :
    (ptToPx n : ℤ) = round ((n : ℚ) * 1.333) := by
  have hne : ¬ (1333 * n) % 1000 = 500 := fun hc => h (tie_iff_mod n hc)
  rw [ptToPx_eq_div n hne, round_eq]
  have hx : (n : ℚ) * 1.333 + 1 / 2 = ((2666 * n + 1000 : ℕ) : ℚ) / 2000 := by
    push_cast
    ring_nf
  rw [hx, floor_nat_div_2000]

lemma head_not_digit_pt :
    ∀ c : Char, ("pt".toList).head? = some c → c.isDigit = false := by
  intro c hc
  have : c = 'p' := by
    have h2 : some 'p' = some c := by simpa using hc
    exact (Option.some.inj h2).symm
  rw [this]
  decide

lemma head_not_digit_px :
    ∀ c : Char, ("px".toList).head? = some c → c.isDigit = false := by
  intro c hc
  have : c = 'p' := by
    have h2 : some 'p' = some c := by simpa using hc
    exact (Option.some.inj h2).symm
  rw [this]
  decide

lemma parseSize_pos (ds : List Char) (u : String) (h1 : ds ≠ [])
    (h2 : ∀ c ∈ ds, c.isDigit = true) :
    (u = "pt" → parseSize ⟨ds ++ u.toList⟩ = some (ptToPx (digitsToNat ds))) ∧
    (u = "px" → parseSize ⟨ds ++ u.toList⟩ = some (digitsToNat ds)) := by
  constructor <;> rintro rfl
  · obtain ⟨ht, hd⟩ :=
      takeWhile_append_eq Char.isDigit ds "pt".toList h2 head_not_digit_pt
    show parseSize ⟨ds ++ "pt".toList⟩ = some (ptToPx (digitsToNat ds))
    simp only [parseSize]
    have hcs : (String.mk (ds ++ "pt".toList)).toList = ds ++ "pt".toList := rfl
    rw [hcs, ht, hd, if_neg h1, if_neg (by decide : ¬("pt".toList = "px".toList)),
      if_pos rfl]
  · obtain ⟨ht, hd⟩ :=
      takeWhile_append_eq Char.isDigit ds "px".toList h2 head_not_digit_px
    show parseSize ⟨ds ++ "px".toList⟩ = some (digitsToNat ds)
    simp only [parseSize]
    have hcs : (String.mk (ds ++ "px".toList)).toList = ds ++ "px".toList := rfl
    rw [hcs, ht, hd, if_neg h1, if_pos rfl]

lemma not_sizeLiteral_pt : ¬ sizeLiteral "pt" := by
  rintro ⟨ds, u, hEq, hne, hdig, _⟩
  cases ds with
  | nil => exact hne rfl
  | cons a t =>
    have ha : a = 'p' := by
      have h2 : some 'p' = some a := by simpa using congrArg List.head? hEq
      exact (Option.some.inj h2).symm
    have hd := hdig a (by simp)
    rw [ha] at hd
    exact absurd hd (by decide)

/-- Claim C6: size extraction.  (1) Outside the exact rational ties
(`n % 1000 = 500`, where Python `round` goes to even) the `pt`
conversion equals `round(n * 1.333)`; (2) for every `n` the converted
value is a nearest integer to `n * 1.333`; (3) strings of the shape
`<digits>pt` / `<digits>px` parse to the converted / unchanged integer;
(4) strings not matching `^(\d+)(px|pt)$` set nothing; (5) `16pt` yields
21 and `16px` yields 16, on the markup `font-size` path as well, where a
declaration with a unit other than px/pt sets nothing. -/
theorem c6_size_conversion :
    (∀ n : ℕ, ¬ n % 1000 = 500 → (ptToPx n : ℤ) = round ((n : ℚ) * 1.333)) ∧
    (∀ (n : ℕ) (m : ℤ),
      |((ptToPx n : ℕ) : ℚ) - (n : ℚ) * 1.333| ≤ |(m : ℚ) - (n : ℚ) * 1.333|) ∧
    (∀ (ds : List Char) (u : String), ds ≠ [] → (∀ c ∈ ds, c.isDigit = true) →
      ((u = "pt" → parseSize ⟨ds ++ u.toList⟩ = some (ptToPx (digitsToNat ds))) ∧
       (u = "px" → parseSize ⟨ds ++ u.toList⟩ = some (digitsToNat ds)))) ∧
    (∀ s : String, ¬ sizeLiteral s → parseSize s = none) ∧
    parseSize "16pt" = some 21 ∧ parseSize "16px" = some 16 ∧
    scanFor matchFontSizeAt "x; font-size: 16pt".toList = some 21 ∧
    scanFor matchFontSizeAt "font-size: 16em;".toList = none := by
  refine ⟨?_, ?_, parseSize_pos, parseSize_none_of, by decide, by decide,
    by decide, by decide⟩
  · exact ptToPx_eq_round
  · intro n m
    exact nearest_of_close (p := (ptToPx n : ℤ)) (by exact_mod_cast ptToPx_close n) m

/-- Witness for C6: the non-matching string `pt` parses to nothing; the
tie-free input 16 satisfies the round identity; `16pt` parses through
the digits/unit decomposition. -/
theorem c6_size_conversion_witness :
    parseSize "pt" = none ∧
      (ptToPx 16 : ℤ) = round ((16 : ℚ) * 1.333) ∧
      parseSize ⟨['1', '6'] ++ "pt".toList⟩ =
        some (ptToPx (digitsToNat ['1', '6'])) :=
  ⟨c6_size_conversion.2.2.2.1 "pt" not_sizeLiteral_pt,
   by
     have h := c6_size_conversion.1 16 (by norm_num)
     exact_mod_cast h,
   (c6_size_conversion.2.2.1 ['1', '6'] "pt" (by decide) (by decide)).1 rfl⟩

lemma startsWithL_isPfx : ∀ {l pat : List Char},
    startsWithL l pat = true → pat <+: l := by
  intro l pat
  induction pat generalizing l with
  | nil => intro _; exact List.nil_prefix
  | cons p ps ih =>
    cases l with
    | nil => intro h; simp [startsWithL] at h
    | cons c t =>
      intro h
      simp only [startsWithL, Bool.and_eq_true, decide_eq_true_eq] at h
      exact List.cons_prefix_cons.mpr ⟨h.1.symm, ih h.2⟩

lemma afterLit_suffix {l pat r : List Char} (h : afterLit l pat = some r) :
    r <:+ l := by
  unfold afterLit at h
  split at h
  · exact (Option.some.inj h) ▸ List.drop_suffix pat.length l
  · exact absurd h (by simp)

lemma afterLit_isPfx {l pat r : List Char} (h : afterLit l pat = some r) :
    pat <+: l := by
  unfold afterLit at h
  split at h
  · next hc => exact startsWithL_isPfx hc
  · exact absurd h (by simp)

lemma afterLitCI_suffix {l pat r : List Char} (h : afterLitCI l pat = some r) :
    r <:+ l := by
  unfold afterLitCI at h
  split at h
  · exact (Option.some.inj h) ▸ List.drop_suffix pat.length l
  · exact absurd h (by simp)

lemma scanFor_suffix {α : Type} {m : List Char → Option α} :
    ∀ {l : List Char} {v : α}, scanFor m l = some v →
      ∃ t, t <:+ l ∧ m t = some v := by
  intro l
  induction l with
  | nil => exact fun h => ⟨[], List.suffix_refl [], h⟩
  | cons c t ih =>
    intro v h
    unfold scanFor at h
    cases hm : m (c :: t) with
    | some w =>
      rw [hm] at h
      exact ⟨c :: t, List.suffix_refl _, by rw [hm, Option.some.inj h]⟩
    | none =>
      rw [hm] at h
      obtain ⟨t2, ht2, hmt⟩ := ih h
      exact ⟨t2, ht2.trans (List.suffix_cons c t), hmt⟩

lemma matchCssColorAt_mem {prop l cap : List Char}
    (h : matchCssColorAt prop l = some cap) : ∀ c ∈ cap, c ∈ l := by
  unfold matchCssColorAt at h
  split at h
  · exact absurd h (by simp)
  · next r1 hA =>
    have hr1 : r1 <:+ l := afterLit_suffix hA
    split at h
    · exact absurd h (by simp)
    · next r2 hB =>
      have hr2 : r2 <:+ l :=
        ((afterLit_suffix hB).trans (List.dropWhile_suffix _)).trans hr1
      have hr3 : r2.dropWhile isPySpace <:+ l :=
        (List.dropWhile_suffix _).trans hr2
      dsimp only at h
      split at h
      · next t heq =>
        split at h
        · next hlen =>
          have hcap : cap = '#' :: (t.takeWhile isHexLowerDigit).take 8 :=
            (Option.some.inj h).symm
          intro c hc
          rw [hcap] at hc
          rcases List.mem_cons.mp hc with rfl | hc2
          · exact hr3.subset (heq ▸ List.mem_cons_self _ _)
          · have ht : t <:+ l :=
              (List.suffix_cons '#' t).trans (heq ▸ hr3)
            exact ht.subset
              ((List.takeWhile_prefix _).subset (List.take_subset 8 _ hc2))
        · exact absurd h (by simp)
      · next heq2 =>
        split at h
        · next t hC =>
          split at h
          · next rest hD =>
            split at h
            · exact absurd h (by simp)
            · next hinner =>
              have hcap : cap = "rgb(".toList ++
                  t.takeWhile (fun c => c ≠ ')') ++ [')'] :=
                by
                  have := Option.some.inj h
                  rw [← this]
              have ht : t <:+ l := (afterLit_suffix hC).trans hr3
              intro c hc
              rw [hcap] at hc
              simp only [List.append_assoc, List.mem_append] at hc
              rcases hc with hc1 | hc2
              · exact hr3.subset ((afterLit_isPfx hC).subset hc1)
              · rcases hc2 with hc3 | hc4
                · exact ht.subset ((List.takeWhile_prefix _).subset hc3)
                · have hcc : c = ')' := by simpa using hc4
                  have hd : (')' :: rest) <:+ t :=
                    hD ▸ List.dropWhile_suffix (fun c => c ≠ ')')
                  rw [hcc]
                  exact ht.subset (hd.subset (List.mem_cons_self _ _))
          · exact absurd h (by simp)
        · exact absurd h (by simp)

lemma matchTextAlignAt_vals {l : List Char} {v : String}
    (h : matchTextAlignAt l = some v) :
    v = "left" ∨ v = "right" ∨ v = "center" ∨ v = "justify" := by
  unfold matchTextAlignAt at h
  split at h
  · exact absurd h (by simp)
  · split at h
    · exact absurd h (by simp)
    · dsimp only at h
      split at h
      · exact Or.inl (Option.some.inj h).symm
      · split at h
        · exact Or.inr (Or.inl (Option.some.inj h).symm)
        · split at h
          · exact Or.inr (Or.inr (Or.inl (Option.some.inj h).symm))
          · split at h
            · exact Or.inr (Or.inr (Or.inr (Option.some.inj h).symm))
            · exact absurd h (by simp)

lemma matchHrefCore_isInf {q : Char} {t cap : List Char} :
    ∀ k, matchHrefCore q t k = some cap → cap <:+: t := by
  intro k
  induction k with
  | zero => intro h; exact absurd h (by simp [matchHrefCore])
  | succ k ih =>
    intro h
    unfold matchHrefCore at h
    split at h
    · next c r3 hA =>
      split at h
      · next hc =>
        split at h
        · next rest hD =>
          dsimp only at h
          split at h
          · exact ih h
          · next hcap =>
            have hv : cap = r3.takeWhile (fun x => x ≠ q) :=
              (Option.some.inj h).symm
            have h1 : (c :: r3) <:+ t :=
              (afterLitCI_suffix hA).trans (List.drop_suffix (k + 1) t)
            have h2 : r3 <:+ t := (List.suffix_cons c r3).trans h1
            exact hv ▸ (List.takeWhile_prefix _).isInfix.trans h2.isInfix
        · exact ih h
      · exact ih h
    · exact ih h

lemma matchAnchorAt_isInf {q : Char} {l cap : List Char}
    (h : matchAnchorAt q l = some cap) : cap <:+: l := by
  unfold matchAnchorAt at h
  split at h
  · next c t =>
    split at h
    · have h1 : t <:+ '<' :: c :: t :=
        (List.suffix_cons c t).trans (List.suffix_cons '<' (c :: t))
      exact (matchHrefCore_isInf _ h).trans h1.isInfix
    · exact absurd h (by simp)
  · exact absurd h (by simp)

lemma searchHrefL_isInf {s cap : List Char}
    (h : searchHrefL s = some cap) : cap <:+: s := by
  unfold searchHrefL at h
  split at h
  · next hS =>
    obtain ⟨t, ht, hm⟩ := scanFor_suffix hS
    have := Option.some.inj h
    exact this ▸ (matchAnchorAt_isInf hm).trans ht.isInfix
  · obtain ⟨t, ht, hm⟩ := scanFor_suffix h
    exact (matchAnchorAt_isInf hm).trans ht.isInfix

/-- Claim C9: values the markup pass newly stores into `textColor`,
`backgroundColor` and `horizontalAlignment` are extracted from the
lowercased copy of the source (or are lowercase literals), hence are
invariant under lowercasing; a newly stored `link` is a verbatim
contiguous substring of the *original* source, preserving its character
case. -/
theorem c9_lowercase (el : Element) (s : List Char) (v : String) :
    ((markupAttrs el s).textColor = some v →
      el.textColor = some v ∨ pyLowerStr v = v) ∧
    ((markupAttrs el s).backgroundColor = some v →
      el.backgroundColor = some v ∨ pyLowerStr v = v) ∧
    ((markupAttrs el s).horizontalAlignment = some v →
      el.horizontalAlignment = some v ∨ pyLowerStr v = v) ∧
    ((markupAttrs el s).link = some v →
      el.link = some v ∨ v.toList <:+: s) := by
  refine ⟨?_, ?_, ?_, ?_⟩
  · intro h
    simp only [markupAttrs] at h
    split at h
    · exact Or.inl h
    · split at h
      · next cap hS =>
        right
        obtain ⟨t, ht, hm⟩ := scanFor_suffix hS
        have hsub : ∀ c ∈ cap, c ∈ pyLowerL s :=
          fun c hc => ht.subset (matchCssColorAt_mem hm c hc)
        rw [← Option.some.inj h]
        exact pyLowerStr_fix_of_subset hsub
      · exact Or.inl h
  · intro h
    simp only [markupAttrs] at h
    split at h
    · exact Or.inl h
    · split at h
      · next cap hS =>
        right
        obtain ⟨t, ht, hm⟩ := scanFor_suffix hS
        have hsub : ∀ c ∈ cap, c ∈ pyLowerL s :=
          fun c hc => ht.subset (matchCssColorAt_mem hm c hc)
        rw [← Option.some.inj h]
        exact pyLowerStr_fix_of_subset hsub
      · exact Or.inl h
  · intro h
    simp only [markupAttrs] at h
    split at h
    · exact Or.inr (by rw [← Option.some.inj h]; decide)
    · split at h
      · exact Or.inr (by rw [← Option.some.inj h]; decide)
      · split at h
        · exact Or.inr (by rw [← Option.some.inj h]; decide)
        · split at h
          · next w hS =>
            right
            obtain ⟨t, ht, hm⟩ := scanFor_suffix hS
            rw [← Option.some.inj h]
            rcases matchTextAlignAt_vals hm with rfl | rfl | rfl | rfl <;> decide
          · exact Or.inl h
  · intro h
    simp only [markupAttrs] at h
    split at h
    · exact Or.inl h
    · split at h
      · next cap hS =>
        right
        rw [← Option.some.inj h]
        exact searchHrefL_isInf hS
      · exact Or.inl h

/-- Witness for C9: uppercase `COLOR:#FF0000` markup stores the
lowercased `#ff0000`; a mixed-case href value is stored verbatim. -/
theorem c9_lowercase_witness :
    (markupAttrs {} "COLOR:#FF0000".toList).textColor = some "#ff0000" ∧
      pyLowerStr "#ff0000" = "#ff0000" ∧
      (markupAttrs {} "<a x href=\"HtTp://X\">".toList).link = some "HtTp://X" ∧
      "HtTp://X".toList <:+: "<a x href=\"HtTp://X\">".toList := by
  refine ⟨by decide, ?_, by decide, ?_⟩
  · exact ((c9_lowercase {} "COLOR:#FF0000".toList "#ff0000").1
      (by decide)).resolve_left (by decide)
  · exact ((c9_lowercase {} "<a x href=\"HtTp://X\">".toList "HtTp://X").2.2.2
      (by decide)).resolve_left (by decide)
